import Mathlib

/-!
# Fuddle: pending-update queue, replica forwarder, node state and SDK update

A shallow embedding of

* `pkg/registry/client/replicaclient.go` (`pendingUpdates`, `ReplicaClient`),
* `pkg/registry/nodestate.go` (`NodeState.Copy`, `CopyState`),
* `pkg/sdk/fuddle.go` (`Fuddle.Update`),

followed by theorems about them.

Conventions of the embedding.

* Every method of `pendingUpdates` runs with `p.mu` held from entry to exit, so a
  call is one atomic transition of the fields `limit`, `pending`, `closed`.
* A Go call that raises a runtime panic has no result: `none`.
* `Take` parks in `p.cv.Wait()` while the queue is open and empty; a parked call has
  not returned and has changed nothing: `none`.
* The element type `*rpc.Member2` is declared outside the repository and is a type
  parameter `α`: a value of `α` is a pointer as the caller passed it, a nil pointer or
  a pointer to a member without `State` included. The literal `nil` that `Take`
  returns with `ok = false` is `none`.
-/

namespace FuddleSpec

/-! ## pendingUpdates -/

/-- The fields of `pendingUpdates` that `mu` protects (`cv` and `mu` themselves carry
no data). `limit` is a Go `int`. -/
structure pendingUpdates (α : Type) where
  limit : Int
  pending : List α
  closed : Bool
deriving DecidableEq, Repr

/-- Go `newPendingUpdates(limit)`: `pending` is the nil slice, `closed` is false. -/
def newPendingUpdates {α : Type} (limit : Int) : pendingUpdates α :=
  { limit := limit, pending := [], closed := false }

/-- The slice expression `s[1:]`: a runtime panic on an empty slice. -/
def sliceFrom1 {α : Type} : List α → Option (List α)
  | [] => none
  | _ :: t => some t

/-- Go `pendingUpdates.Push`. The length test comes first and runs whether or not the
queue is closed; the closed test follows; the append comes last. -/
def pendingUpdates.Push {α : Type} (p : pendingUpdates α) (u : α) :
    Option (pendingUpdates α) :=
  let dropped : Option (pendingUpdates α) :=
    if (p.pending.length : Int) > p.limit then
      (sliceFrom1 p.pending).map (fun t => { p with pending := t })
    else
      some p
  dropped.map (fun q =>
    if q.closed then q else { q with pending := q.pending ++ [u] })

/-- Go `pendingUpdates.Take`. The wait loop `for len(p.pending) == 0 && !p.closed` parks
the call (`none`); otherwise a closed queue returns `(nil, false)` and an open one
returns its front element with `true` and keeps the rest. -/
def pendingUpdates.Take {α : Type} (p : pendingUpdates α) :
    Option ((Option α × Bool) × pendingUpdates α) :=
  if p.pending.length = 0 ∧ p.closed = false then
    none
  else if p.closed then
    some ((none, false), p)
  else
    match p.pending with
    | [] => none
    | u :: rest => some ((some u, true), { p with pending := rest })

/-- Go `pendingUpdates.Close`: only the closed flag is set (`cv.Signal` carries no
data). -/
def pendingUpdates.Close {α : Type} (p : pendingUpdates α) : pendingUpdates α :=
  { p with closed := true }

/-- One call on a queue. -/
inductive Op (α : Type) where
  | push (u : α)
  | take
  | close
deriving DecidableEq, Repr

/-- The queue after one call, together with what `Take` returned (if the call was a
`Take`); `none` when the call does not return. -/
def applyOp {α : Type} (p : pendingUpdates α) :
    Op α → Option (List (Option α × Bool) × pendingUpdates α)
  | Op.push u => (p.Push u).map (fun q => ([], q))
  | Op.take => (p.Take).map (fun r => ([r.1], r.2))
  | Op.close => some ([], p.Close)

/-- A sequence of calls, one after the other: the values returned by the `Take`s, in
order, and the final queue; `none` as soon as one call does not return. -/
def runOps {α : Type} (p : pendingUpdates α) :
    List (Op α) → Option (List (Option α × Bool) × pendingUpdates α)
  | [] => some ([], p)
  | o :: os =>
    match applyOp p o with
    | none => none
    | some (r, q) =>
      match runOps q os with
      | none => none
      | some (rs, q') => some (r ++ rs, q')

/-- Push every element of a list, in order. -/
def pushAll {α : Type} (p : pendingUpdates α) : List α → Option (pendingUpdates α)
  | [] => some p
  | u :: us =>
    match p.Push u with
    | none => none
    | some q => pushAll q us

/-- Call `Take` `n` times in a row: the values returned and the final queue. -/
def takeN {α : Type} (p : pendingUpdates α) :
    Nat → Option (List (Option α × Bool) × pendingUpdates α)
  | 0 => some ([], p)
  | n + 1 =>
    match p.Take with
    | none => none
    | some (r, q) =>
      match takeN q n with
      | none => none
      | some (rs, q') => some (r :: rs, q')

/-! ## ReplicaClient -/

/-- The `rpc.UpdateRequest` as `sendLoop` builds it. -/
structure UpdateRequest (α : Type) where
  Member : Option α
  SourceNodeId : String
deriving DecidableEq, Repr

/-- The fields of `ReplicaClient` that `Update`, `Close` and `sendLoop` read or
change, with the two things `sendLoop` acts on made explicit: `sent` is the list of
`c.client.Update` calls issued so far, oldest first, and `warned` the member ids the
logger was given by `c.logger.Warn`. `running` is true until `sendLoop` returns. -/
structure ReplicaClient (α : Type) where
  localID : String
  pending : pendingUpdates α
  sent : List (UpdateRequest α)
  warned : List String
  running : Bool
deriving DecidableEq, Repr

/-- Go `ReplicaClient.Update`: `c.pending.Push(u)`. -/
def ReplicaClient.Update {α : Type} (c : ReplicaClient α) (u : α) :
    Option (ReplicaClient α) :=
  (c.pending.Push u).map (fun q => { c with pending := q })

/-- Go `ReplicaClient.Close`, up to `c.wg.Wait()`: the context is cancelled (which only
makes calls in flight fail) and the queue is closed. `c.wg.Wait()` then holds the
caller until `sendLoop` has returned. -/
def ReplicaClient.Close {α : Type} (c : ReplicaClient α) : ReplicaClient α :=
  { c with pending := c.pending.Close }

/-- How an event of a client ends: it completes and leaves a client; or it is a loop
iteration whose `Take` has not returned, the loop waiting inside it; or it is a loop
iteration asked of a loop that has already returned; or it raises a runtime panic,
which ends the loop with the process, leaving the client given. -/
inductive Outcome (α : Type) where
  | done (c : ReplicaClient α)
  | parked
  | returned
  | panicked (c : ReplicaClient α)
deriving DecidableEq, Repr

/-- One iteration of the `for` loop of `ReplicaClient.sendLoop`.

`rpcErr n` is the error of the `n`-th call of `c.client.Update` (`none` for `nil`), so
every assignment of outcomes to the calls is some `rpcErr`.

`memberID u` is the value of `m.State.Id` for the taken pointer `u`, which the loop
evaluates only to build the warning after a failed call; `rpc.Member2` is declared
outside the repository. It is `none` when evaluating it is a nil-pointer panic: `u` is
nil, or `u.State` is nil. The request has been issued by then. -/
def ReplicaClient.sendLoopIter {α : Type} (rpcErr : Nat → Option String)
    (memberID : α → Option String) (c : ReplicaClient α) : Outcome α :=
  match c.pending.Take with
  | none => Outcome.parked
  | some ((_, false), q) => Outcome.done { c with pending := q, running := false }
  | some ((m, true), q) =>
    let req : UpdateRequest α := { Member := m, SourceNodeId := c.localID }
    match rpcErr c.sent.length with
    | none => Outcome.done { c with pending := q, sent := c.sent ++ [req] }
    | some _ =>
      match m.bind memberID with
      | none =>
        Outcome.panicked { c with pending := q, sent := c.sent ++ [req], running := false }
      | some id =>
        Outcome.done { c with pending := q, sent := c.sent ++ [req],
                              warned := c.warned ++ [id] }

/-- What can happen next to a `ReplicaClient`: another goroutine calls `Update(u)`,
the queue is closed by `Close`, or `sendLoop` runs one iteration. -/
inductive Event (α : Type) where
  | update (u : α)
  | close
  | loop
deriving DecidableEq, Repr

/-- The queue call an event makes. -/
def Event.toOp {α : Type} : Event α → Op α
  | Event.update u => Op.push u
  | Event.close => Op.close
  | Event.loop => Op.take

/-- One event. A `loop` event needs a loop that has not returned; an `Update` whose
`Push` panics leaves the client as it was. -/
def ReplicaClient.step {α : Type} (rpcErr : Nat → Option String)
    (memberID : α → Option String) (c : ReplicaClient α) : Event α → Outcome α
  | Event.update u =>
    match c.Update u with
    | none => Outcome.panicked c
    | some c' => Outcome.done c'
  | Event.close => Outcome.done c.Close
  | Event.loop => if c.running then c.sendLoopIter rpcErr memberID else Outcome.returned

/-- A schedule of events, one after the other, up to the first that does not
complete. -/
def ReplicaClient.run {α : Type} (rpcErr : Nat → Option String)
    (memberID : α → Option String) (c : ReplicaClient α) : List (Event α) → Outcome α
  | [] => Outcome.done c
  | e :: es =>
    match c.step rpcErr memberID e with
    | Outcome.done c' => c'.run rpcErr memberID es
    | Outcome.parked => Outcome.parked
    | Outcome.returned => Outcome.returned
    | Outcome.panicked c' => Outcome.panicked c'

/-- The updates among the values returned by a sequence of `Take`s. -/
def takenUpdates {α : Type} (rs : List (Option α × Bool)) : List α :=
  rs.filterMap (fun r => if r.2 then r.1 else none)

/-! ## NodeState -/

/-- The entries of one Go `map[string]string`: at most one value per key. -/
abbrev MapCells : Type := AList (fun _ : String => String)

/-- The allocated maps, by address. -/
structure Heap where
  cells : List MapCells

/-- A Go value of type `map[string]string`: `none` is the nil map, `some a` the map
allocated at address `a`. -/
abbrev GoMap : Type := Option Nat

/-- Go `make(map[string]string)`: a new empty map at the next free address. -/
def Heap.make (h : Heap) : Heap × GoMap :=
  ({ cells := h.cells ++ [∅] }, some h.cells.length)

/-- The entries of a map value (none for the nil map). -/
def Heap.entries (h : Heap) : GoMap → List (Sigma (fun _ : String => String))
  | none => []
  | some a => ((h.cells[a]?).getD ∅).entries

/-- The read `v, ok := m[k]`: `none` when `ok` is false. Reading the nil map finds nothing. -/
def Heap.get (h : Heap) (m : GoMap) (k : String) : Option String :=
  match m with
  | none => none
  | some a => ((h.cells[a]?).getD ∅).lookup k

/-- The assignment `m[k] = v`: a runtime panic on the nil map. -/
def Heap.assign (h : Heap) (m : GoMap) (k v : String) : Option Heap :=
  match m with
  | none => none
  | some a =>
    match h.cells[a]? with
    | none => none
    | some c => some { cells := h.cells.set a (c.insert k v) }

/-- The loop `for k, v := range s` with body `cp[k] = v`, over the entries `es` of
`s` in the order the runtime yields them. -/
def copyEntries (cp : GoMap) :
    Heap → List (Sigma (fun _ : String => String)) → Option Heap
  | h, [] => some h
  | h, e :: es =>
    match h.assign cp e.1 e.2 with
    | none => none
    | some h' => copyEntries cp h' es

/-- Go `CopyState`: a new map for the nil map, else a new map filled entry by
entry. The loop runs over the entries as stored; what it leaves does not depend on the
order (`copyEntries_spec` holds for every list of entries with distinct keys). -/
def CopyState (h : Heap) (s : GoMap) : Option (Heap × GoMap) :=
  if s = none then
    some h.make
  else
    let (h1, cp) := h.make
    (copyEntries cp h1 (h.entries s)).map (fun h2 => (h2, cp))

/-- Go `NodeState`. `Created` is an `int64`; it is only ever copied here. -/
structure NodeState where
  ID : String
  Service : String
  Locality : String
  Created : Int
  Revision : String
  State : GoMap
deriving DecidableEq, Repr

/-- Go `NodeState.Copy`: `cp := *s; cp.State = CopyState(s.State); return cp`. -/
def NodeState.Copy (h : Heap) (s : NodeState) : Option (Heap × NodeState) :=
  (CopyState h s.State).map (fun r => (r.1, { s with State := r.2 }))

/-- A map value is nil or allocated in the heap. -/
def Heap.allocated (h : Heap) : GoMap → Prop
  | none => True
  | some a => a < h.cells.length

instance Heap.decidableAllocated (h : Heap) : (m : GoMap) → Decidable (h.allocated m)
  | none => isTrue trivial
  | some a => inferInstanceAs (Decidable (a < h.cells.length))

/-! ## Fuddle.Update -/

/-- The `rpc.UpdateType`, with the three values `fuddle.go` uses. -/
inductive UpdateType where
  | NODE_JOIN
  | NODE_UPDATE
  | NODE_LEAVE
deriving DecidableEq, Repr

/-- The `rpc.Attributes`, as `Register` fills it. -/
structure RpcAttributes where
  Id : String
  Service : String
  Locality : String
  Revision : String
deriving DecidableEq, Repr

/-- The `rpc.NodeUpdate`, with the fields `fuddle.go` sets. A field left out of a
composite literal is nil: `none`. `State` lists the entries of the map. -/
structure NodeUpdate where
  NodeId : String
  UpdateType : UpdateType
  Attributes : Option RpcAttributes
  State : Option (List (String × String))
deriving DecidableEq, Repr

/-- The two collaborators of `Fuddle.Update`, which are not part of `fuddle.go`:
`registry.NodeMap.Update` on a node map in state `σ` and `Send` on a gRPC stream in
state `τ`. Each returns its next state and its error (`none` for `nil`). -/
structure Collaborators (σ τ : Type) where
  nodeMapUpdate : σ → NodeUpdate → σ × Option String
  streamSend : τ → NodeUpdate → τ × Option String

/-- A call made to a collaborator. -/
inductive Call where
  | nodeMapUpdate (u : NodeUpdate)
  | streamSend (u : NodeUpdate)
deriving DecidableEq, Repr

/-- The fields of `Fuddle` that `Update` uses, and the calls made to the collaborators
so far, oldest first. -/
structure Fuddle (σ τ : Type) where
  id : String
  nodeMap : σ
  stream : τ
  calls : List Call

/-- The wrapping `fmt.Errorf("fuddle: %w", err)`. -/
def wrapErr (err : String) : String := "fuddle: " ++ err

/-- The composite literal `&rpc.NodeUpdate` that `Fuddle.Update` builds. -/
def updateRecord (id key value : String) : NodeUpdate :=
  { NodeId := id, UpdateType := UpdateType.NODE_UPDATE, Attributes := none,
    State := some [(key, value)] }

/-- Go `Fuddle.Update`: the returned error (`none` for `nil`) and the client afterwards. -/
def Fuddle.Update {σ τ : Type} (env : Collaborators σ τ) (f : Fuddle σ τ)
    (key value : String) : Option String × Fuddle σ τ :=
  let update : NodeUpdate := updateRecord f.id key value
  let (nm, err) := env.nodeMapUpdate f.nodeMap update
  let f1 : Fuddle σ τ :=
    { f with nodeMap := nm, calls := f.calls ++ [Call.nodeMapUpdate update] }
  match err with
  | some e => (some (wrapErr e), f1)
  | none =>
    let (st, err2) := env.streamSend f1.stream update
    let f2 : Fuddle σ τ :=
      { f1 with stream := st, calls := f1.calls ++ [Call.streamSend update] }
    match err2 with
    | some e => (some (wrapErr e), f2)
    | none => (none, f2)

/-! # Theorems -/

/-! ## pendingUpdates: single calls -/

section Queue

variable {α : Type}

theorem Push_eq_some_iff (p q : pendingUpdates α) (u : α) :
    p.Push u = some q ↔
      ∃ l, (if (p.pending.length : Int) > p.limit then sliceFrom1 p.pending
            else some p.pending) = some l ∧
        q = { limit := p.limit,
              pending := if p.closed then l else l ++ [u],
              closed := p.closed } := by
  obtain ⟨lim, l, c⟩ := p
  simp only [pendingUpdates.Push]
  by_cases hlen : (l.length : Int) > lim
  · cases l with
    | nil => simp only [if_pos hlen, sliceFrom1]; simp
    | cons a t =>
      simp only [if_pos hlen, sliceFrom1, Option.map_some', Option.some.injEq]
      constructor
      · intro h
        exact ⟨t, rfl, by cases c <;> simpa using h.symm⟩
      · rintro ⟨l', rfl, rfl⟩
        cases c <;> simp
  · simp only [if_neg hlen, Option.map_some', Option.some.injEq]
    constructor
    · intro h
      exact ⟨l, rfl, by cases c <;> simpa using h.symm⟩
    · rintro ⟨l', rfl, rfl⟩
      cases c <;> simp

theorem sliceFrom1_suffix (l t : List α) (h : sliceFrom1 l = some t) : t <:+ l := by
  cases l with
  | nil => simp [sliceFrom1] at h
  | cons a r =>
    simp only [sliceFrom1, Option.some.injEq] at h
    subst h
    exact List.suffix_cons a r

theorem sliceFrom1_length (l t : List α) (h : sliceFrom1 l = some t) :
    t.length + 1 = l.length := by
  cases l with
  | nil => simp [sliceFrom1] at h
  | cons a r =>
    simp only [sliceFrom1, Option.some.injEq] at h
    subst h
    simp

/-- With a limit that is not negative `Push` never slices an empty queue. -/
theorem Push_isSome (p : pendingUpdates α) (u : α) (hl : 0 ≤ p.limit) :
    ∃ q, p.Push u = some q := by
  by_cases hlen : (p.pending.length : Int) > p.limit
  · cases hp : p.pending with
    | nil => simp [hp] at hlen; omega
    | cons a t =>
      refine ⟨_, (Push_eq_some_iff p _ u).2 ⟨t, ?_, rfl⟩⟩
      rw [if_pos hlen, hp]
      rfl
  · exact ⟨_, (Push_eq_some_iff p _ u).2 ⟨p.pending, by simp [hlen], rfl⟩⟩

/-- A `Push` keeps the limit and the closed flag. -/
theorem Push_frame (p q : pendingUpdates α) (u : α) (h : p.Push u = some q) :
    q.limit = p.limit ∧ q.closed = p.closed := by
  obtain ⟨l, -, rfl⟩ := (Push_eq_some_iff p q u).1 h
  exact ⟨rfl, rfl⟩

/-- On a closed queue `Push` leaves a suffix of what was pending. -/
theorem Push_closed_suffix (p q : pendingUpdates α) (u : α) (hc : p.closed = true)
    (h : p.Push u = some q) : q.pending <:+ p.pending := by
  obtain ⟨l, hl, rfl⟩ := (Push_eq_some_iff p q u).1 h
  simp only [hc, if_true]
  by_cases hlen : (p.pending.length : Int) > p.limit
  · rw [if_pos hlen] at hl
    exact sliceFrom1_suffix _ _ hl
  · rw [if_neg hlen] at hl
    simp only [Option.some.injEq] at hl
    subst hl
    exact List.suffix_refl _

/-- On an open queue holding at most `limit` updates `Push` appends. -/
theorem Push_open_room (p : pendingUpdates α) (u : α) (hc : p.closed = false)
    (hlen : (p.pending.length : Int) ≤ p.limit) :
    p.Push u = some { p with pending := p.pending ++ [u] } := by
  refine (Push_eq_some_iff p _ u).2 ⟨p.pending, ?_, ?_⟩
  · have : ¬ (p.pending.length : Int) > p.limit := by omega
    simp [this]
  · simp [hc]

/-- The queue never grows past `limit + 1`. -/
theorem Push_length_le (p q : pendingUpdates α) (u : α)
    (hb : (p.pending.length : Int) ≤ p.limit + 1) (h : p.Push u = some q) :
    (q.pending.length : Int) ≤ p.limit + 1 := by
  obtain ⟨l, hl, rfl⟩ := (Push_eq_some_iff p q u).1 h
  by_cases hlen : (p.pending.length : Int) > p.limit
  · rw [if_pos hlen] at hl
    have := sliceFrom1_length _ _ hl
    cases p.closed <;> simp <;> omega
  · rw [if_neg hlen] at hl
    simp only [Option.some.injEq] at hl
    subst hl
    cases p.closed <;> simp <;> omega

theorem Take_closed (p : pendingUpdates α) (hc : p.closed = true) :
    p.Take = some ((none, false), p) := by
  simp [pendingUpdates.Take, hc]

theorem Take_open_cons (p : pendingUpdates α) (u : α) (rest : List α)
    (hc : p.closed = false) (hp : p.pending = u :: rest) :
    p.Take = some ((some u, true), { p with pending := rest }) := by
  simp [pendingUpdates.Take, hc, hp]

theorem Take_open_nil (p : pendingUpdates α) (hc : p.closed = false)
    (hp : p.pending = []) : p.Take = none := by
  simp [pendingUpdates.Take, hc, hp]

/-- Every way `Take` can return. -/
theorem Take_eq_some_iff (p q : pendingUpdates α) (r : Option α × Bool) :
    p.Take = some (r, q) ↔
      (p.closed = true ∧ r = (none, false) ∧ q = p) ∨
      (p.closed = false ∧ ∃ u rest, p.pending = u :: rest ∧ r = (some u, true) ∧
        q = { p with pending := rest }) := by
  cases hc : p.closed
  · cases hp : p.pending with
    | nil => simp [Take_open_nil p hc hp]
    | cons u rest =>
      rw [Take_open_cons p u rest hc hp]
      simp only [Option.some.injEq, Prod.mk.injEq, Bool.false_eq_true, false_and, true_and,
        false_or, List.cons.injEq]
      constructor
      · rintro ⟨rfl, rfl⟩
        exact ⟨u, rest, ⟨rfl, rfl⟩, rfl, by rw [hc]⟩
      · rintro ⟨u', rest', ⟨rfl, rfl⟩, rfl, rfl⟩
        exact ⟨rfl, by rw [hc]⟩
  · rw [Take_closed p hc]
    simp only [Option.some.injEq, Prod.mk.injEq, true_and, Bool.true_eq_false, false_and,
      or_false]
    constructor
    · rintro ⟨rfl, rfl⟩
      exact ⟨rfl, rfl⟩
    · rintro ⟨rfl, rfl⟩
      exact ⟨rfl, rfl⟩

end Queue

/-! ## pendingUpdates: sequences of calls -/

section QueueRuns

variable {α : Type}

theorem runOps_cons_eq_some (p q' : pendingUpdates α) (o : Op α) (os : List (Op α))
    (rs : List (Option α × Bool)) :
    runOps p (o :: os) = some (rs, q') ↔
      ∃ r q rs', applyOp p o = some (r, q) ∧ runOps q os = some (rs', q') ∧
        rs = r ++ rs' := by
  cases h1 : applyOp p o with
  | none => simp [runOps, h1]
  | some x =>
    obtain ⟨r, q⟩ := x
    cases h2 : runOps q os with
    | none =>
      simp only [runOps, h1, h2, Option.some.injEq, Prod.mk.injEq]
      constructor
      · intro h
        exact Option.noConfusion h
      · rintro ⟨r', q1, rs1, ⟨rfl, rfl⟩, h3, -⟩
        rw [h2] at h3
        exact Option.noConfusion h3
    | some y =>
      obtain ⟨rs', q''⟩ := y
      simp only [runOps, h1, h2, Option.some.injEq, Prod.mk.injEq]
      constructor
      · rintro ⟨rfl, rfl⟩
        exact ⟨r, q, rs', ⟨rfl, rfl⟩, h2, rfl⟩
      · rintro ⟨r', q1, rs1, ⟨rfl, rfl⟩, h3, rfl⟩
        rw [h2] at h3
        simp only [Option.some.injEq, Prod.mk.injEq] at h3
        obtain ⟨rfl, rfl⟩ := h3
        exact ⟨rfl, rfl⟩

/-- What one call does to a closed queue. -/
theorem applyOp_closed (p q : pendingUpdates α) (o : Op α) (r : List (Option α × Bool))
    (hc : p.closed = true) (h : applyOp p o = some (r, q)) :
    q.closed = true ∧ q.pending <:+ p.pending ∧ q.limit = p.limit ∧
      ∀ x ∈ r, x = (none, false) := by
  cases o with
  | push u =>
    simp only [applyOp, Option.map_eq_some', Prod.mk.injEq] at h
    obtain ⟨q0, hq, rfl, rfl⟩ := h
    obtain ⟨h1, h2⟩ := Push_frame p q0 u hq
    exact ⟨by rw [h2, hc], Push_closed_suffix p q0 u hc hq, h1, by simp⟩
  | take =>
    rw [applyOp, Take_closed p hc] at h
    simp only [Option.map_some', Option.some.injEq, Prod.mk.injEq] at h
    obtain ⟨rfl, rfl⟩ := h
    exact ⟨hc, List.suffix_refl _, rfl, by simp⟩
  | close =>
    simp only [applyOp, Option.some.injEq, Prod.mk.injEq] at h
    obtain ⟨rfl, rfl⟩ := h
    exact ⟨rfl, List.suffix_refl _, rfl, by simp⟩

/-- Whatever is called on a closed queue, it stays closed, nothing is added to it and
every `Take` returns `(nil, false)`. -/
theorem runOps_closed (os : List (Op α)) (p q : pendingUpdates α)
    (rs : List (Option α × Bool)) (hc : p.closed = true)
    (h : runOps p os = some (rs, q)) :
    q.closed = true ∧ q.pending <:+ p.pending ∧ q.limit = p.limit ∧
      ∀ x ∈ rs, x = (none, false) := by
  induction os generalizing p rs with
  | nil =>
    simp only [runOps, Option.some.injEq, Prod.mk.injEq] at h
    obtain ⟨rfl, rfl⟩ := h
    exact ⟨hc, List.suffix_refl _, rfl, by simp⟩
  | cons o os ih =>
    obtain ⟨r, q1, rs', h1, h2, rfl⟩ := (runOps_cons_eq_some p q o os rs).1 h
    obtain ⟨a1, a2, a3, a4⟩ := applyOp_closed p q1 o r hc h1
    obtain ⟨b1, b2, b3, b4⟩ := ih q1 rs' a1 h2
    refine ⟨b1, b2.trans a2, b3.trans a3, ?_⟩
    intro x hx
    rcases List.mem_append.1 hx with hx | hx
    · exact a4 x hx
    · exact b4 x hx

/-- On a closed queue with a limit that is not negative every call returns. -/
theorem runOps_closed_isSome (os : List (Op α)) (p : pendingUpdates α)
    (hc : p.closed = true) (hl : 0 ≤ p.limit) : ∃ x, runOps p os = some x := by
  induction os generalizing p with
  | nil => exact ⟨_, rfl⟩
  | cons o os ih =>
    have h1 : ∃ r q, applyOp p o = some (r, q) := by
      cases o with
      | push u =>
        obtain ⟨q, hq⟩ := Push_isSome p u hl
        exact ⟨[], q, by simp [applyOp, hq]⟩
      | take => exact ⟨_, _, by rw [applyOp, Take_closed p hc]; rfl⟩
      | close => exact ⟨_, _, rfl⟩
    obtain ⟨r, q, h1⟩ := h1
    obtain ⟨a1, -, a3, -⟩ := applyOp_closed p q o r hc h1
    obtain ⟨⟨rs, q'⟩, h2⟩ := ih q a1 (by rw [a3]; exact hl)
    exact ⟨(r ++ rs, q'), (runOps_cons_eq_some p q' o os _).2 ⟨r, q, rs, h1, h2, rfl⟩⟩

/-- Successive `Take`s on an open queue hand out the pending updates front first. -/
theorem takeN_open (n : Nat) (p : pendingUpdates α) (hc : p.closed = false)
    (hn : n ≤ p.pending.length) :
    takeN p n = some ((p.pending.take n).map (fun u => (some u, true)),
      { p with pending := p.pending.drop n }) := by
  induction n generalizing p with
  | zero => simp [takeN]
  | succ n ih =>
    cases hp : p.pending with
    | nil => rw [hp] at hn; simp at hn
    | cons u rest =>
      rw [hp] at hn
      have hn' : n ≤ rest.length := by simpa using hn
      have := ih { p with pending := rest } hc hn'
      simp only [takeN, Take_open_cons p u rest hc hp, this]
      simp

/-- As many `Take`s as there are pending updates empty an open queue, front first. -/
theorem takeN_all (p : pendingUpdates α) (hc : p.closed = false) :
    takeN p p.pending.length = some (p.pending.map (fun u => (some u, true)),
      { p with pending := [] }) := by
  rw [takeN_open p.pending.length p hc (le_refl _), List.take_length, List.drop_length]

/-- Pushes onto an open queue that stays within `limit + 1` entries append in order. -/
theorem pushAll_open_room (us : List α) (p : pendingUpdates α) (hc : p.closed = false)
    (hlen : ((p.pending.length + us.length : Nat) : Int) ≤ p.limit + 1) :
    pushAll p us = some { p with pending := p.pending ++ us } := by
  induction us generalizing p with
  | nil => simp [pushAll]
  | cons u us ih =>
    have h1 : (p.pending.length : Int) ≤ p.limit := by
      simp only [List.length_cons] at hlen
      omega
    have h2 := ih { p with pending := p.pending ++ [u] } hc (by
      simp only [List.length_append, List.length_cons, List.length_nil] at hlen ⊢
      omega)
    simp only [pushAll, Push_open_room p u hc h1, h2]
    simp

/-- What a `Push` onto an open queue does, limit not negative. -/
theorem Push_open (p : pendingUpdates α) (u : α) (hc : p.closed = false)
    (hl : 0 ≤ p.limit) :
    p.Push u = some { p with pending :=
      (if (p.pending.length : Int) > p.limit then p.pending.tail else p.pending) ++ [u] } := by
  obtain ⟨lim, l, c⟩ := p
  simp only at hc hl
  subst hc
  refine (Push_eq_some_iff _ _ u).2 ?_
  by_cases hlen : (l.length : Int) > lim
  · cases l with
    | nil => simp at hlen; omega
    | cons a t =>
      refine ⟨t, by simp only [if_pos hlen]; rfl, ?_⟩
      simp only [if_pos hlen, List.tail_cons]
      rfl
  · refine ⟨l, by simp only [if_neg hlen], ?_⟩
    simp only [if_neg hlen]
    rfl

/-- Pushes onto an open queue, limit not negative: the queue ends with the last
`limit + 1` of the updates it held or was given, in order. -/
theorem pushAll_open (us : List α) (p : pendingUpdates α) (hc : p.closed = false)
    (hl : 0 ≤ p.limit) (hlen : p.pending.length ≤ p.limit.toNat + 1) :
    pushAll p us = some
      { p with
        pending :=
          List.drop ((p.pending ++ us).length - (p.limit.toNat + 1)) (p.pending ++ us) } := by
  induction us generalizing p with
  | nil =>
    have h0 : (p.pending ++ []).length - (p.limit.toNat + 1) = 0 := by
      simp only [List.append_nil]
      omega
    rw [h0]
    simp [pushAll]
  | cons u us ih =>
    have htn : (p.limit.toNat : Int) = p.limit := Int.toNat_of_nonneg hl
    rw [pushAll, Push_open p u hc hl]
    by_cases hgt : (p.pending.length : Int) > p.limit
    · have hfull : p.pending.length = p.limit.toNat + 1 := by omega
      cases hp : p.pending with
      | nil => rw [hp] at hfull; simp at hfull
      | cons a t =>
        rw [hp] at hgt hfull
        have ht : t.length = p.limit.toNat := by simpa using hfull
        have := ih { p with pending := t ++ [u] } hc hl (by simp [ht])
        simp only [if_pos hgt, List.tail_cons]
        rw [this]
        have e1 : (t ++ [u] ++ us).length - (p.limit.toNat + 1) = us.length := by
          simp only [List.length_append, List.length_cons, List.length_nil]
          omega
        have e2 : (a :: t ++ u :: us).length - (p.limit.toNat + 1) = us.length + 1 := by
          simp only [List.length_append, List.length_cons]
          omega
        simp only [e1, e2]
        simp
    · have hroom : p.pending.length ≤ p.limit.toNat := by omega
      have := ih { p with pending := p.pending ++ [u] } hc hl (by simp; omega)
      simp only [if_neg hgt]
      rw [this]
      simp

/-- One call keeps the limit, and keeps the queue within `limit + 1` entries. -/
theorem applyOp_length_le (p q : pendingUpdates α) (o : Op α)
    (r : List (Option α × Bool)) (hb : (p.pending.length : Int) ≤ p.limit + 1)
    (h : applyOp p o = some (r, q)) :
    q.limit = p.limit ∧ (q.pending.length : Int) ≤ p.limit + 1 := by
  cases o with
  | push u =>
    simp only [applyOp, Option.map_eq_some', Prod.mk.injEq] at h
    obtain ⟨q0, hq, -, rfl⟩ := h
    exact ⟨(Push_frame p q0 u hq).1, Push_length_le p q0 u hb hq⟩
  | take =>
    simp only [applyOp, Option.map_eq_some', Prod.mk.injEq] at h
    obtain ⟨x, hx, -, rfl⟩ := h
    rcases (Take_eq_some_iff p x.2 x.1).1 (by simpa using hx) with
      ⟨-, -, hq⟩ | ⟨-, u, rest, hp, -, hq⟩
    · rw [hq]
      exact ⟨rfl, hb⟩
    · rw [hq]
      rw [hp] at hb
      simp only [List.length_cons] at hb
      exact ⟨rfl, by simp only; omega⟩
  | close =>
    simp only [applyOp, Option.some.injEq, Prod.mk.injEq] at h
    obtain ⟨-, rfl⟩ := h
    exact ⟨rfl, hb⟩

/-- Any sequence of calls keeps the limit, and keeps the queue within `limit + 1`
entries. -/
theorem runOps_length_le (os : List (Op α)) (p q : pendingUpdates α)
    (rs : List (Option α × Bool)) (hb : (p.pending.length : Int) ≤ p.limit + 1)
    (h : runOps p os = some (rs, q)) :
    q.limit = p.limit ∧ (q.pending.length : Int) ≤ p.limit + 1 := by
  induction os generalizing p rs with
  | nil =>
    simp only [runOps, Option.some.injEq, Prod.mk.injEq] at h
    obtain ⟨-, rfl⟩ := h
    exact ⟨rfl, hb⟩
  | cons o os ih =>
    obtain ⟨r, q1, rs', h1, h2, -⟩ := (runOps_cons_eq_some p q o os rs).1 h
    obtain ⟨a1, a2⟩ := applyOp_length_le p q1 o r hb h1
    obtain ⟨b1, b2⟩ := ih q1 rs' (by rw [a1]; exact a2) h2
    exact ⟨b1.trans a1, by rw [a1] at b2; exact b2⟩

/-- With a limit that is not negative, the only call that does not return is a `Take`
on an open, empty queue. -/
theorem applyOp_eq_none (p : pendingUpdates α) (o : Op α) (hl : 0 ≤ p.limit)
    (h : applyOp p o = none) : o = Op.take ∧ p.closed = false ∧ p.pending = [] := by
  cases o with
  | push u =>
    obtain ⟨q, hq⟩ := Push_isSome p u hl
    simp [applyOp, hq] at h
  | take =>
    simp only [applyOp, Option.map_eq_none'] at h
    cases hc : p.closed
    · cases hp : p.pending with
      | nil => exact ⟨rfl, rfl, rfl⟩
      | cons u rest =>
        rw [Take_open_cons p u rest hc hp] at h
        exact Option.noConfusion h
    · rw [Take_closed p hc] at h
      exact Option.noConfusion h
  | close => simp [applyOp] at h

/-- With a limit that is not negative, a sequence of calls fails to return only at a
`Take` called on an open, empty queue. -/
theorem runOps_eq_none (os : List (Op α)) (p : pendingUpdates α) (hl : 0 ≤ p.limit)
    (h : runOps p os = none) :
    ∃ k rs q, runOps p (os.take k) = some (rs, q) ∧ os[k]? = some Op.take ∧
      q.closed = false ∧ q.pending = [] := by
  induction os generalizing p with
  | nil => simp [runOps] at h
  | cons o os ih =>
    cases h1 : applyOp p o with
    | none =>
      obtain ⟨rfl, hc, hp⟩ := applyOp_eq_none p o hl h1
      exact ⟨0, [], p, rfl, by simp, hc, hp⟩
    | some x =>
      obtain ⟨r, q1⟩ := x
      have hq1 : q1.limit = p.limit := by
        cases o with
        | push u =>
          simp only [applyOp, Option.map_eq_some', Prod.mk.injEq] at h1
          obtain ⟨q0, hq, -, rfl⟩ := h1
          exact (Push_frame p q0 u hq).1
        | take =>
          simp only [applyOp, Option.map_eq_some', Prod.mk.injEq] at h1
          obtain ⟨x, hx, -, rfl⟩ := h1
          rcases (Take_eq_some_iff p x.2 x.1).1 (by simpa using hx) with
            ⟨-, -, hq⟩ | ⟨-, u, rest, -, -, hq⟩ <;> rw [hq]
        | close =>
          simp only [applyOp, Option.some.injEq, Prod.mk.injEq] at h1
          obtain ⟨-, rfl⟩ := h1
          rfl
      have h2 : runOps q1 os = none := by
        cases h3 : runOps q1 os with
        | none => rfl
        | some y =>
          obtain ⟨rs', q'⟩ := y
          rw [(runOps_cons_eq_some p q' o os (r ++ rs')).2 ⟨r, q1, rs', h1, h3, rfl⟩] at h
          exact Option.noConfusion h
      obtain ⟨k, rs, q, b1, b2, b3, b4⟩ := ih q1 (by rw [hq1]; exact hl) h2
      refine ⟨k + 1, r ++ rs, q, ?_, by simpa using b2, b3, b4⟩
      rw [List.take_succ_cons]
      exact (runOps_cons_eq_some p q o _ _).2 ⟨r, q1, rs, h1, b1, rfl⟩

end QueueRuns

/-! ## pendingUpdates: the size of the queue and the order of delivery -/

section QueueClaims

variable {α : Type}

/-- C1, counterexample: with `limit = 1`, two pushes onto a new queue leave two
updates pending, one more than the limit; the length test of `Push` evicts only once
the queue already holds more than `limit` updates. -/
theorem Push_twice_limit_one :
    runOps (newPendingUpdates 1) [Op.push "U1", Op.push "U2"] =
        some ([], { limit := 1, pending := ["U1", "U2"], closed := false }) ∧
      ((1 : Int) < (["U1", "U2"] : List String).length) := by
  decide

/-- C1, amended: for a queue made by `newPendingUpdates(limit)` with `limit ≥ 1` and
any sequence of `Push`, `Take` and `Close` calls, the number of pending updates after
each call is at most `limit + 1`; and the only call of such a sequence that does not
return is a `Take` on an open, empty queue. -/
theorem pending_le_limit_succ (L : Int) (ops : List (Op α)) (hL : 1 ≤ L) :
    (∀ k rs q, runOps (newPendingUpdates L) (ops.take k) = some (rs, q) →
        (q.pending.length : Int) ≤ L + 1) ∧
      (runOps (newPendingUpdates L : pendingUpdates α) ops = none →
        ∃ k rs q, runOps (newPendingUpdates L) (ops.take k) = some (rs, q) ∧
          ops[k]? = some Op.take ∧ q.closed = false ∧ q.pending = []) := by
  refine ⟨?_, ?_⟩
  · intro k rs q h
    exact (runOps_length_le (ops.take k) (newPendingUpdates L) q rs
      (by simp only [newPendingUpdates, List.length_nil]; omega) h).2
  · intro h
    exact runOps_eq_none ops (newPendingUpdates L)
      (by simp only [newPendingUpdates]; omega) h

/-- Witness of `pending_le_limit_succ`. -/
theorem pending_le_limit_succ_witness :
    (1 : Int) ≤ 1 ∧
      ((({ limit := 1, pending := [2, 3], closed := false } :
        pendingUpdates Nat).pending.length : Nat) : Int) ≤ 1 + 1 :=
  ⟨by decide,
    (pending_le_limit_succ 1 [Op.push 1, Op.push 2, Op.push 3] (by decide)).1 3 []
      { limit := 1, pending := [2, 3], closed := false } (by decide)⟩

/-- C2, counterexample: with `limit = 2`, pushing U1, U2, U3, U4 onto a new queue
leaves [U2, U3, U4] pending, three updates and not the last two. -/
theorem Push_four_limit_two :
    pushAll (newPendingUpdates 2) ["U1", "U2", "U3", "U4"] =
      some { limit := 2, pending := ["U2", "U3", "U4"], closed := false } := by
  decide

/-- C2, amended: for a limit `L ≥ 1`, pushing a list of `n` updates one after the other
onto a new queue, with no `Take` in between, leaves exactly the last `min(n, L + 1)`
of them pending, in push order; with `limit = 2`, pushing U1, U2, U3, U4 leaves
[U2, U3, U4]. -/
theorem pushAll_keeps_last (L : Int) (us : List α) (hL : 1 ≤ L) :
    (∃ q, pushAll (newPendingUpdates L) us = some q ∧ q.limit = L ∧ q.closed = false ∧
        q.pending = us.drop (us.length - min us.length (L.toNat + 1)) ∧
        q.pending.length = min us.length (L.toNat + 1) ∧
        q.pending <:+ us) ∧
      pushAll (newPendingUpdates 2) ["U1", "U2", "U3", "U4"] =
        some { limit := 2, pending := ["U2", "U3", "U4"], closed := false } := by
  refine ⟨?_, by decide⟩
  have h1 := pushAll_open us (newPendingUpdates L : pendingUpdates α) rfl
    (by simp only [newPendingUpdates]; omega) (by simp [newPendingUpdates])
  simp only [newPendingUpdates, List.nil_append] at h1
  refine ⟨_, by simpa [newPendingUpdates] using h1, rfl, rfl, ?_, ?_, ?_⟩
  · have : us.length - min us.length (L.toNat + 1) = us.length - (L.toNat + 1) := by
      omega
    simp only [this]
  · simp only [List.length_drop]
    omega
  · exact List.drop_suffix _ _

/-- Witness of `pushAll_keeps_last`. -/
theorem pushAll_keeps_last_witness :
    (1 : Int) ≤ 1 ∧
      ∃ q, pushAll (newPendingUpdates 1) [4, 5, 6] = some q ∧
        q.pending = ([4, 5, 6] : List Nat).drop
          (([4, 5, 6] : List Nat).length - min ([4, 5, 6] : List Nat).length
            ((1 : Int).toNat + 1)) :=
  ⟨by decide, by
    obtain ⟨q, h1, -, -, h2, -⟩ := (pushAll_keeps_last 1 [4, 5, 6] (by decide)).1
    exact ⟨q, h1, h2⟩⟩

/-- C3, counterexample: after `Push(U1)` and `Close()` on a new queue the first `Take`
returns `(nil, false)`, not `(U1, true)`, while U1 is still pending; so `Take` returns
`ok = false` on a closed queue whose pending sequence is not empty. -/
theorem Take_after_Close_counterexample :
    runOps (newPendingUpdates 2) [Op.push "U1", Op.close, Op.take, Op.take] =
        some ([(none, false), (none, false)],
          { limit := 2, pending := ["U1"], closed := true }) ∧
      (({ limit := 2, pending := ["U1"], closed := true } : pendingUpdates String).Take =
        some ((none, false), { limit := 2, pending := ["U1"], closed := true })) ∧
      (["U1"] : List String) ≠ [] := by
  decide

/-- C3, amended: `Take` returns `ok = false` exactly when the queue is closed, whether
or not updates are still pending, and it then returns nil and leaves the queue as it
is; in particular, with a limit that is not negative, after `Push(u)` on a new queue
followed by `Close()` every later `Take` returns `(nil, false)` and `u` stays
pending. -/
theorem Take_false_iff_closed (p : pendingUpdates α) (L : Int) (u : α) (n : Nat)
    (hL : 0 ≤ L) :
    (∀ r q, p.Take = some (r, q) → (r.2 = false ↔ p.closed = true)) ∧
      (p.closed = true → p.Take = some ((none, false), p)) ∧
      runOps (newPendingUpdates L) (Op.push u :: Op.close :: List.replicate n Op.take) =
        some (List.replicate n (none, false),
          { limit := L, pending := [u], closed := true }) := by
  refine ⟨?_, Take_closed p, ?_⟩
  · intro r q h
    rcases (Take_eq_some_iff p q r).1 h with ⟨hc, rfl, -⟩ | ⟨hc, u', rest, -, rfl, -⟩
    · simp [hc]
    · simp [hc]
  · have hpush : (newPendingUpdates L : pendingUpdates α).Push u =
        some { limit := L, pending := [u], closed := false } := by
      rw [Push_open_room _ u rfl (by simpa [newPendingUpdates] using hL)]
      rfl
    have htakes : ∀ m : Nat,
        runOps ({ limit := L, pending := [u], closed := true } : pendingUpdates α)
          (List.replicate m Op.take) =
        some (List.replicate m (none, false),
          { limit := L, pending := [u], closed := true }) := by
      intro m
      induction m with
      | zero => rfl
      | succ m ih =>
        rw [List.replicate_succ, runOps, applyOp, Take_closed _ rfl]
        simp only [Option.map_some', ih]
        rfl
    rw [runOps, applyOp, hpush]
    simp only [Option.map_some']
    rw [runOps, applyOp]
    simp only [pendingUpdates.Close, htakes n]
    rfl

/-- Witness of `Take_false_iff_closed`. -/
theorem Take_false_iff_closed_witness :
    (0 : Int) ≤ 2 ∧
      runOps (newPendingUpdates 2) (Op.push 7 :: Op.close :: List.replicate 3 Op.take) =
        some (List.replicate 3 (none, false),
          ({ limit := 2, pending := [7], closed := true } : pendingUpdates Nat)) :=
  ⟨by decide, (Take_false_iff_closed (newPendingUpdates 2) 2 7 3 (by decide)).2.2⟩

/-- C4: on an open queue with a non-empty pending sequence `Take` returns the front
update with `ok = true` and leaves the rest in order; on a closed queue it returns
`(nil, false)`; so `n` successive `Take`s on an open queue return its first `n`
pending updates in order; and after pushing a list of updates onto a new queue (limit
not negative) the queue holds a final segment of that list, which successive `Take`s
return in the order it was pushed. -/
theorem Take_fifo (p : pendingUpdates α) (n : Nat) (L : Int) (us : List α)
    (hn : n ≤ p.pending.length) (hL : 0 ≤ L) :
    (p.closed = false → ∀ u rest, p.pending = u :: rest →
        p.Take = some ((some u, true), { p with pending := rest })) ∧
      (p.closed = true → p.Take = some ((none, false), p)) ∧
      (p.closed = false →
        takeN p n = some ((p.pending.take n).map (fun u => (some u, true)),
          { p with pending := p.pending.drop n })) ∧
      (∃ q, pushAll (newPendingUpdates L) us = some q ∧
          q.pending = us.drop (us.length - (L.toNat + 1)) ∧
          takeN q q.pending.length =
            some (q.pending.map (fun u => (some u, true)),
              { limit := L, pending := [], closed := false })) := by
  refine ⟨fun hc u rest hp => Take_open_cons p u rest hc hp, Take_closed p,
    fun hc => takeN_open n p hc hn, ?_⟩
  have h1 := pushAll_open us (newPendingUpdates L : pendingUpdates α) rfl hL
    (by simp [newPendingUpdates])
  simp only [newPendingUpdates, List.nil_append] at h1
  refine ⟨_, by simpa [newPendingUpdates] using h1, rfl, ?_⟩
  exact takeN_all
    ({ limit := L, pending := us.drop (us.length - (L.toNat + 1)), closed := false } :
      pendingUpdates α) rfl

/-- Witness of `Take_fifo`. -/
theorem Take_fifo_witness :
    (2 ≤ ([5, 6, 7] : List Nat).length ∧ (0 : Int) ≤ 1) ∧
      takeN ({ limit := 2, pending := [5, 6, 7], closed := false } : pendingUpdates Nat) 2 =
        some ([(some 5, true), (some 6, true)],
          { limit := 2, pending := [7], closed := false }) :=
  ⟨by decide,
    (Take_fifo ({ limit := 2, pending := [5, 6, 7], closed := false } : pendingUpdates Nat)
      2 1 [8, 9] (by decide) (by decide)).2.2.1 rfl⟩

/-- C6: `Close` sets the closed flag, leaves the pending sequence and the limit as
they are, and closing twice is closing once. -/
theorem Close_idempotent (s : pendingUpdates α) :
    s.Close.closed = true ∧ s.Close.pending = s.pending ∧ s.Close.limit = s.limit ∧
      s.Close.Close = s.Close :=
  ⟨rfl, rfl, rfl, rfl⟩

/-- No call changes the limit. -/
theorem applyOp_limit (p q : pendingUpdates α) (o : Op α) (r : List (Option α × Bool))
    (h : applyOp p o = some (r, q)) : q.limit = p.limit := by
  cases o with
  | push u =>
    simp only [applyOp, Option.map_eq_some', Prod.mk.injEq] at h
    obtain ⟨q0, hq, -, rfl⟩ := h
    exact (Push_frame p q0 u hq).1
  | take =>
    simp only [applyOp, Option.map_eq_some', Prod.mk.injEq] at h
    obtain ⟨x, hx, -, rfl⟩ := h
    rcases (Take_eq_some_iff p x.2 x.1).1 (by simpa using hx) with
      ⟨-, -, hq⟩ | ⟨-, u, rest, -, -, hq⟩ <;> rw [hq]
  | close =>
    simp only [applyOp, Option.some.injEq, Prod.mk.injEq] at h
    obtain ⟨-, rfl⟩ := h
    rfl

theorem runOps_limit (os : List (Op α)) (p q : pendingUpdates α)
    (rs : List (Option α × Bool)) (h : runOps p os = some (rs, q)) :
    q.limit = p.limit := by
  induction os generalizing p rs with
  | nil =>
    simp only [runOps, Option.some.injEq, Prod.mk.injEq] at h
    obtain ⟨-, rfl⟩ := h
    rfl
  | cons o os ih =>
    obtain ⟨r, q1, rs', h1, h2, -⟩ := (runOps_cons_eq_some p q o os rs).1 h
    exact (ih q1 rs' h2).trans (applyOp_limit p q1 o r h1)

theorem sliceFrom1_eq_tail (l t : List α) (h : sliceFrom1 l = some t) : t = l.tail := by
  cases l with
  | nil => simp [sliceFrom1] at h
  | cons a r =>
    simp only [sliceFrom1, Option.some.injEq] at h
    simp [h]

/-- What `Push` does to a closed queue when it returns. -/
theorem Push_closed_eq (p q : pendingUpdates α) (u : α) (hc : p.closed = true)
    (h : p.Push u = some q) :
    q = { p with pending :=
      if (p.pending.length : Int) > p.limit then p.pending.tail else p.pending } := by
  obtain ⟨l, hl, rfl⟩ := (Push_eq_some_iff p q u).1 h
  by_cases hlen : (p.pending.length : Int) > p.limit
  · rw [if_pos hlen] at hl
    have := sliceFrom1_eq_tail _ _ hl
    simp [hc, hlen, this]
  · rw [if_neg hlen] at hl
    simp only [Option.some.injEq] at hl
    subst hl
    simp only [hc, if_true, if_neg hlen]

/-- A run of pushes alone is `pushAll`. -/
theorem runOps_map_push (us : List α) (p : pendingUpdates α) :
    runOps p (us.map Op.push) = (pushAll p us).map (fun q => ([], q)) := by
  induction us generalizing p with
  | nil => rfl
  | cons u us ih =>
    cases hq : p.Push u with
    | none => simp [runOps, applyOp, pushAll, hq]
    | some q =>
      simp only [List.map_cons, runOps, applyOp, pushAll, hq, Option.map_some', ih q]
      cases pushAll q us <;> rfl

/-- C11: for a limit `L ≥ 0`, every state reached from `newPendingUpdates(L)` by
`Push`, `Take` and `Close` holds at most `L + 1` pending updates, and a state holding
exactly `L + 1` is reached (by `L + 1` pushes). -/
theorem pending_bound_attained (L : Int) (u : α) (hL : 0 ≤ L) :
    (∀ ops rs q, runOps (newPendingUpdates L : pendingUpdates α) ops = some (rs, q) →
        (q.pending.length : Int) ≤ L + 1) ∧
      (∃ ops rs q, runOps (newPendingUpdates L : pendingUpdates α) ops = some (rs, q) ∧
        (q.pending.length : Int) = L + 1) := by
  refine ⟨?_, ?_⟩
  · intro ops rs q h
    exact (runOps_length_le ops (newPendingUpdates L) q rs
      (by simp only [newPendingUpdates, List.length_nil]; omega) h).2
  · have hn : ((L.toNat : Nat) : Int) = L := Int.toNat_of_nonneg hL
    have hpush := pushAll_open_room (List.replicate (L.toNat + 1) u)
      (newPendingUpdates L : pendingUpdates α) rfl
      (by simp only [newPendingUpdates, List.length_nil, List.length_replicate]; omega)
    refine ⟨(List.replicate (L.toNat + 1) u).map Op.push, [],
      { limit := L, pending := List.replicate (L.toNat + 1) u, closed := false }, ?_, ?_⟩
    · rw [runOps_map_push, hpush]
      simp [newPendingUpdates]
    · simp only [List.length_replicate]
      omega

/-- Witness of `pending_bound_attained`. -/
theorem pending_bound_attained_witness :
    (0 : Int) ≤ 2 ∧
      ∃ ops rs q, runOps (newPendingUpdates 2 : pendingUpdates Nat) ops = some (rs, q) ∧
        (q.pending.length : Int) = 2 + 1 :=
  ⟨by decide, (pending_bound_attained 2 7 (by decide)).2⟩

/-- C12, counterexample: with `limit = 0`, `Push(U1)` then `Close()` on a new queue
reach a closed queue holding [U1]; `Push(U2)` on it leaves nothing pending, because
the length test of `Push` runs, and evicts, before the closed test. -/
theorem Push_closed_evicts_counterexample :
    runOps (newPendingUpdates 0) [Op.push "U1", Op.close] =
        some ([], { limit := 0, pending := ["U1"], closed := true }) ∧
      ({ limit := 0, pending := ["U1"], closed := true } : pendingUpdates String).Push "U2" =
        some { limit := 0, pending := [], closed := true } ∧
      (["U1"] : List String) ≠ [] := by
  decide

/-- C12, amended: on a closed queue reached from `newPendingUpdates(L)` by `Push`,
`Take` and `Close`, `Push(u)` never adds `u` and leaves the closed flag and the limit
as they are; it leaves the pending sequence as it is when at most `limit` updates are
pending, and drops the oldest pending update when more are. With `L ≥ 0` the call
returns, and the pending sequence can only be changed when it holds exactly `L + 1`
updates. -/
theorem Push_closed_effect (L : Int) (ops : List (Op α)) (rs : List (Option α × Bool))
    (p : pendingUpdates α) (u : α)
    (hreach : runOps (newPendingUpdates L) ops = some (rs, p)) (hc : p.closed = true) :
    (∀ q, p.Push u = some q →
        q.closed = p.closed ∧ q.limit = p.limit ∧
        q.pending =
          (if (p.pending.length : Int) > p.limit then p.pending.tail else p.pending)) ∧
      ((p.pending.length : Int) ≤ p.limit → p.Push u = some p) ∧
      (0 ≤ L → ∃ q, p.Push u = some q) ∧
      (0 ≤ L → ∀ q, p.Push u = some q → q.pending ≠ p.pending →
        (p.pending.length : Int) = L + 1) := by
  have hlim : p.limit = L := runOps_limit ops (newPendingUpdates L) p rs hreach
  refine ⟨?_, ?_, ?_, ?_⟩
  · intro q hq
    rw [Push_closed_eq p q u hc hq]
    exact ⟨rfl, rfl, rfl⟩
  · intro hle
    refine (Push_eq_some_iff p p u).2 ⟨p.pending, ?_, ?_⟩
    · rw [if_neg (by omega)]
    · obtain ⟨lim, l, c⟩ := p
      simp only at hc
      subst hc
      rfl
  · intro hL
    exact Push_isSome p u (by rw [hlim]; exact hL)
  · intro hL q hq hne
    have hbound := (runOps_length_le ops (newPendingUpdates L) p rs
      (by simp only [newPendingUpdates, List.length_nil]; omega) hreach).2
    simp only [newPendingUpdates] at hbound
    rw [Push_closed_eq p q u hc hq] at hne
    by_cases hgt : (p.pending.length : Int) > p.limit
    · rw [hlim] at hgt
      omega
    · simp only [if_neg hgt] at hne
      exact absurd rfl hne

/-- Witness of `Push_closed_effect`. -/
theorem Push_closed_effect_witness :
    (runOps (newPendingUpdates 0) [Op.push 1, Op.close] =
        some ([], ({ limit := 0, pending := [1], closed := true } : pendingUpdates Nat)) ∧
      ({ limit := 0, pending := [1], closed := true } : pendingUpdates Nat).closed = true) ∧
      ∃ q, ({ limit := 0, pending := [1], closed := true } : pendingUpdates Nat).Push 2 =
        some q :=
  ⟨by decide,
    (Push_closed_effect 0 [Op.push 1, Op.close] []
      ({ limit := 0, pending := [1], closed := true } : pendingUpdates Nat) 2
      (by decide) rfl).2.2.1 (by decide)⟩

end QueueClaims

/-! ## ReplicaClient: the send loop against its queue -/

section Client

variable {α : Type}

theorem sendLoopIter_closed (rpcErr : Nat → Option String) (memberID : α → Option String)
    (c : ReplicaClient α) (hc : c.pending.closed = true) :
    c.sendLoopIter rpcErr memberID = Outcome.done { c with running := false } := by
  simp only [ReplicaClient.sendLoopIter, Take_closed c.pending hc]

theorem sendLoopIter_open_nil (rpcErr : Nat → Option String)
    (memberID : α → Option String) (c : ReplicaClient α)
    (hc : c.pending.closed = false) (hp : c.pending.pending = []) :
    c.sendLoopIter rpcErr memberID = Outcome.parked := by
  simp only [ReplicaClient.sendLoopIter, Take_open_nil c.pending hc hp]

/-- An iteration that takes `u` from an open queue: the request is issued; after a
failed call the warning needs `m.State.Id`, and the iteration panics without it. -/
theorem sendLoopIter_open_cons (rpcErr : Nat → Option String)
    (memberID : α → Option String) (c : ReplicaClient α) (u : α) (rest : List α)
    (hc : c.pending.closed = false) (hp : c.pending.pending = u :: rest) :
    c.sendLoopIter rpcErr memberID =
      match rpcErr c.sent.length with
      | none =>
        Outcome.done { c with
          pending := { c.pending with pending := rest },
          sent := c.sent ++ [{ Member := some u, SourceNodeId := c.localID }] }
      | some _ =>
        match memberID u with
        | none =>
          Outcome.panicked { c with
            pending := { c.pending with pending := rest },
            sent := c.sent ++ [{ Member := some u, SourceNodeId := c.localID }],
            running := false }
        | some id =>
          Outcome.done { c with
            pending := { c.pending with pending := rest },
            sent := c.sent ++ [{ Member := some u, SourceNodeId := c.localID }],
            warned := c.warned ++ [id] } := by
  simp only [ReplicaClient.sendLoopIter, Take_open_cons c.pending u rest hc hp,
    Option.some_bind]

theorem takenUpdates_append (r rs : List (Option α × Bool)) :
    takenUpdates (r ++ rs) = takenUpdates r ++ takenUpdates rs := by
  simp [takenUpdates, List.filterMap_append]

/-- One completed event of a client is the matching call on its queue; a `loop` event
adds one request per update taken and stops the loop exactly on `ok = false`. -/
theorem step_refines (rpcErr : Nat → Option String) (memberID : α → Option String)
    (c c' : ReplicaClient α) (e : Event α)
    (h : c.step rpcErr memberID e = Outcome.done c') :
    ∃ r, applyOp c.pending e.toOp = some (r, c'.pending) ∧
      c'.sent = c.sent ++
        (takenUpdates r).map (fun u => { Member := some u, SourceNodeId := c.localID }) ∧
      c'.localID = c.localID ∧
      c'.running = (c.running && r.all (fun x => x.2)) := by
  cases e with
  | update u =>
    simp only [ReplicaClient.step, ReplicaClient.Update] at h
    cases hq : c.pending.Push u with
    | none =>
      rw [hq] at h
      exact Outcome.noConfusion h
    | some q =>
      rw [hq] at h
      simp only [Option.map_some', Outcome.done.injEq] at h
      subst h
      exact ⟨[], by simp [Event.toOp, applyOp, hq], by simp [takenUpdates], rfl, by simp⟩
  | close =>
    simp only [ReplicaClient.step, Outcome.done.injEq] at h
    subst h
    exact ⟨[], rfl, by simp [takenUpdates, ReplicaClient.Close], rfl,
      by simp [ReplicaClient.Close]⟩
  | loop =>
    simp only [ReplicaClient.step] at h
    by_cases hr : c.running = true
    · rw [if_pos hr] at h
      cases hc : c.pending.closed
      · cases hp : c.pending.pending with
        | nil =>
          rw [sendLoopIter_open_nil rpcErr memberID c hc hp] at h
          exact Outcome.noConfusion h
        | cons u rest =>
          rw [sendLoopIter_open_cons rpcErr memberID c u rest hc hp] at h
          have hshape : c'.pending = { c.pending with pending := rest } ∧
              c'.sent = c.sent ++ [{ Member := some u, SourceNodeId := c.localID }] ∧
              c'.localID = c.localID ∧ c'.running = c.running := by
            cases hrpc : rpcErr c.sent.length with
            | none =>
              rw [hrpc] at h
              simp only [Outcome.done.injEq] at h
              subst h
              exact ⟨rfl, rfl, rfl, rfl⟩
            | some err =>
              rw [hrpc] at h
              cases hid : memberID u with
              | none =>
                rw [hid] at h
                exact Outcome.noConfusion h
              | some id =>
                rw [hid] at h
                simp only [Outcome.done.injEq] at h
                subst h
                exact ⟨rfl, rfl, rfl, rfl⟩
          obtain ⟨s1, s2, s3, s4⟩ := hshape
          refine ⟨[(some u, true)], ?_, ?_, s3, ?_⟩
          · rw [s1]
            simp [Event.toOp, applyOp, Take_open_cons c.pending u rest hc hp]
          · rw [s2]
            simp [takenUpdates]
          · rw [s4]
            simp
      · rw [sendLoopIter_closed rpcErr memberID c hc] at h
        simp only [Outcome.done.injEq] at h
        subst h
        refine ⟨[(none, false)], ?_, ?_, rfl, ?_⟩
        · simp [Event.toOp, applyOp, Take_closed c.pending hc]
        · simp [takenUpdates]
        · simp
    · rw [if_neg hr] at h
      exact Outcome.noConfusion h

/-- When `m.State.Id` can be evaluated for every update, an event completes as soon as
its queue call returns, whatever the outcome of the remote calls; only a `loop` event
needs the loop to be still running. -/
theorem step_done (rpcErr : Nat → Option String) (memberID : α → Option String)
    (hid : ∀ u, ∃ id, memberID u = some id)
    (c : ReplicaClient α) (e : Event α) (r : List (Option α × Bool))
    (q : pendingUpdates α) (hr : c.running = true ∨ r = [])
    (h : applyOp c.pending e.toOp = some (r, q)) :
    ∃ c', c.step rpcErr memberID e = Outcome.done c' := by
  cases e with
  | update u =>
    simp only [Event.toOp, applyOp, Option.map_eq_some', Prod.mk.injEq] at h
    obtain ⟨q0, hq, -, -⟩ := h
    exact ⟨{ c with pending := q0 }, by simp [ReplicaClient.step, ReplicaClient.Update, hq]⟩
  | close => exact ⟨_, rfl⟩
  | loop =>
    simp only [Event.toOp, applyOp, Option.map_eq_some', Prod.mk.injEq] at h
    obtain ⟨x, hx, rfl, rfl⟩ := h
    have hr' : c.running = true := by
      rcases hr with hr | hr
      · exact hr
      · simp at hr
    simp only [ReplicaClient.step, if_pos hr']
    rcases (Take_eq_some_iff c.pending x.2 x.1).1 (by simpa using hx) with
      ⟨hc, -, -⟩ | ⟨hc, u, rest, hp, -, -⟩
    · exact ⟨_, sendLoopIter_closed rpcErr memberID c hc⟩
    · rw [sendLoopIter_open_cons rpcErr memberID c u rest hc hp]
      obtain ⟨id, hu⟩ := hid u
      cases rpcErr c.sent.length with
      | none => exact ⟨_, rfl⟩
      | some err =>
        rw [hu]
        exact ⟨_, rfl⟩

theorem run_cons_eq_done (rpcErr : Nat → Option String) (memberID : α → Option String)
    (c c' : ReplicaClient α) (e : Event α) (es : List (Event α)) :
    c.run rpcErr memberID (e :: es) = Outcome.done c' ↔
      ∃ c1, c.step rpcErr memberID e = Outcome.done c1 ∧
        c1.run rpcErr memberID es = Outcome.done c' := by
  cases h1 : c.step rpcErr memberID e <;> simp [ReplicaClient.run, h1]

/-- A completed schedule of a client is the matching sequence of calls on its queue:
the queue ends as those calls leave it, the requests issued are the updates the
`Take`s returned, in order, each with the client's `localID`, and the loop has
returned exactly when a `Take` returned `ok = false`. -/
theorem run_refines (rpcErr : Nat → Option String) (memberID : α → Option String)
    (es : List (Event α)) (c c' : ReplicaClient α)
    (h : c.run rpcErr memberID es = Outcome.done c') :
    ∃ rs, runOps c.pending (es.map Event.toOp) = some (rs, c'.pending) ∧
      c'.sent = c.sent ++
        (takenUpdates rs).map (fun u => { Member := some u, SourceNodeId := c.localID }) ∧
      c'.localID = c.localID ∧
      c'.running = (c.running && rs.all (fun x => x.2)) := by
  induction es generalizing c with
  | nil =>
    simp only [ReplicaClient.run, Outcome.done.injEq] at h
    subst h
    exact ⟨[], rfl, by simp [takenUpdates], rfl, by simp⟩
  | cons e es ih =>
    obtain ⟨c1, h1, h2⟩ := (run_cons_eq_done rpcErr memberID c c' e es).1 h
    obtain ⟨r, a1, a2, a3, a4⟩ := step_refines rpcErr memberID c c1 e h1
    obtain ⟨rs, b1, b2, b3, b4⟩ := ih c1 h2
    refine ⟨r ++ rs, ?_, ?_, b3.trans a3, ?_⟩
    · rw [List.map_cons]
      exact (runOps_cons_eq_some c.pending c'.pending e.toOp _ _).2 ⟨r, _, rs, a1, b1, rfl⟩
    · rw [b2, a2, a3, takenUpdates_append, List.map_append, List.append_assoc]
    · rw [b4, a4, List.all_append, Bool.and_assoc]

/-- When `m.State.Id` can be evaluated for every update, a schedule completes whenever
its queue calls return and no `loop` event follows a `Take` that returned
`ok = false`. -/
theorem run_done (rpcErr : Nat → Option String) (memberID : α → Option String)
    (hid : ∀ u, ∃ id, memberID u = some id)
    (es : List (Event α)) (c : ReplicaClient α) (rs : List (Option α × Bool))
    (q : pendingUpdates α) (hr : c.running = true ∨ rs = [])
    (h : runOps c.pending (es.map Event.toOp) = some (rs, q))
    (hok : ∀ x ∈ rs.dropLast, x.2 = true) :
    ∃ c', c.run rpcErr memberID es = Outcome.done c' := by
  induction es generalizing c rs with
  | nil => exact ⟨c, rfl⟩
  | cons e es ih =>
    rw [List.map_cons] at h
    obtain ⟨r, q1, rs', h1, h2, rfl⟩ := (runOps_cons_eq_some _ _ _ _ _).1 h
    have hr1 : c.running = true ∨ r = [] := by
      rcases hr with hr | hr
      · exact Or.inl hr
      · exact Or.inr (List.append_eq_nil.1 hr).1
    obtain ⟨c1, hc1⟩ := step_done rpcErr memberID hid c e r q1 hr1 h1
    obtain ⟨r0, a1, -, -, a4⟩ := step_refines rpcErr memberID c c1 e hc1
    rw [h1] at a1
    simp only [Option.some.injEq, Prod.mk.injEq] at a1
    obtain ⟨rfl, hq1⟩ := a1
    have hr2 : c1.running = true ∨ rs' = [] := by
      by_cases hrs : rs' = []
      · exact Or.inr hrs
      · left
        have hall : ∀ x ∈ r, x.2 = true := by
          intro x hx
          apply hok
          rw [List.dropLast_append_of_ne_nil _ hrs]
          exact List.mem_append_left _ hx
        have hrun : c.running = true := by
          rcases hr with hr | hr
          · exact hr
          · exact absurd (List.append_eq_nil.1 hr).2 hrs
        rw [a4, hrun]
        simpa using hall
    have hok2 : ∀ x ∈ rs'.dropLast, x.2 = true := by
      intro x hx
      apply hok
      by_cases hrs : rs' = []
      · subst hrs
        simp at hx
      · rw [List.dropLast_append_of_ne_nil _ hrs]
        exact List.mem_append_right _ hx
    obtain ⟨c', hc'⟩ := ih c1 rs' hr2 (by rw [← hq1]; exact h2) hok2
    exact ⟨c', (run_cons_eq_done rpcErr memberID c c' e es).2 ⟨c1, hc1, hc'⟩⟩

theorem takenUpdates_eq_nil (rs : List (Option α × Bool))
    (h : ∀ x ∈ rs, x = (none, false)) : takenUpdates rs = [] := by
  induction rs with
  | nil => rfl
  | cons x rs ih =>
    have hx := h x (List.mem_cons_self _ _)
    have := ih (fun y hy => h y (List.mem_cons_of_mem _ hy))
    simp [takenUpdates] at this ⊢
    exact ⟨by simp [hx], this⟩

/-- C5: on a closed queue `Push(u)` adds nothing (what is pending afterwards is a
suffix of what was pending) and the queue stays closed; so after any sequence of calls
on a closed queue the queue is closed, holds only updates that were pending before,
and every `Take` returned `(nil, false)`; and after `ReplicaClient.Close` no schedule
of `Update`s and loop iterations adds an update to the queue or issues a request. With
a limit that is not negative all these calls return. -/
theorem Push_closed_dropped (p : pendingUpdates α) (u : α) (os : List (Op α))
    (c : ReplicaClient α) (es : List (Event α)) (rpcErr : Nat → Option String)
    (memberID : α → Option String) (hc : p.closed = true) :
    (∀ q, p.Push u = some q →
        q.closed = true ∧ q.pending <:+ p.pending ∧ q.limit = p.limit) ∧
      (0 ≤ p.limit → ∃ q, p.Push u = some q) ∧
      (∀ rs q, runOps p os = some (rs, q) →
        q.closed = true ∧ q.pending <:+ p.pending ∧ ∀ x ∈ rs, x = (none, false)) ∧
      (0 ≤ p.limit → ∃ x, runOps p os = some x) ∧
      (∀ c', c.Close.run rpcErr memberID es = Outcome.done c' →
        c'.pending.closed = true ∧ c'.pending.pending <:+ c.pending.pending ∧
          c'.sent = c.sent) := by
  refine ⟨?_, Push_isSome p u, ?_, runOps_closed_isSome os p hc, ?_⟩
  · intro q hq
    obtain ⟨h1, h2⟩ := Push_frame p q u hq
    exact ⟨by rw [h2, hc], Push_closed_suffix p q u hc hq, h1⟩
  · intro rs q h
    obtain ⟨a1, a2, -, a4⟩ := runOps_closed os p q rs hc h
    exact ⟨a1, a2, a4⟩
  · intro c' h
    obtain ⟨rs, b1, b2, -, -⟩ := run_refines rpcErr memberID es c.Close c' h
    obtain ⟨a1, a2, -, a4⟩ := runOps_closed _ c.Close.pending c'.pending rs rfl b1
    refine ⟨a1, a2, ?_⟩
    rw [b2, takenUpdates_eq_nil rs a4]
    simp [ReplicaClient.Close]

/-- Witness of `Push_closed_dropped`. -/
theorem Push_closed_dropped_witness :
    ({ limit := 2, pending := [1], closed := true } : pendingUpdates Nat).closed = true ∧
      ∃ x, runOps ({ limit := 2, pending := [1], closed := true } : pendingUpdates Nat)
        [Op.push 5, Op.take, Op.push 6] = some x :=
  ⟨rfl,
    (Push_closed_dropped ({ limit := 2, pending := [1], closed := true } : pendingUpdates Nat)
      5 [Op.push 5, Op.take, Op.push 6]
      { localID := "n1", pending := newPendingUpdates 2, sent := [], warned := [],
        running := true }
      [] (fun _ => none) (fun _ => some "m") rfl).2.2.2.1 (by decide)⟩

/-- When `m.State.Id` can be evaluated for every update: an iteration of `sendLoop`
completes as soon as its `Take` returns, whatever the outcome of the remote call; it
leaves the queue as `Take` left it, issues one request carrying the taken update and
`localID` when `ok` is true and none when `ok` is false, and the loop goes on exactly
when `ok` is true. Over any schedule of `Update`, `Close` and loop iterations the
requests issued are the updates returned by the `Take`s, in that order, and the loop
has returned exactly when a `Take` returned `ok = false`. -/
theorem run_forwards (rpcErr : Nat → Option String) (memberID : α → Option String)
    (c : ReplicaClient α) (es : List (Event α)) (hr : c.running = true)
    (hid : ∀ u, ∃ id, memberID u = some id) :
    (∀ r q, c.pending.Take = some (r, q) →
        ∃ c1, c.sendLoopIter rpcErr memberID = Outcome.done c1 ∧ c1.pending = q ∧
          c1.running = r.2 ∧
          c1.sent = c.sent ++ (takenUpdates [r]).map
            (fun u => { Member := some u, SourceNodeId := c.localID })) ∧
      (c.pending.Take = none → c.sendLoopIter rpcErr memberID = Outcome.parked) ∧
      (∀ c', c.run rpcErr memberID es = Outcome.done c' →
        ∃ rs, runOps c.pending (es.map Event.toOp) = some (rs, c'.pending) ∧
          c'.sent = c.sent ++ (takenUpdates rs).map
            (fun u => { Member := some u, SourceNodeId := c.localID }) ∧
          (c'.running = false ↔ ∃ x ∈ rs, x.2 = false)) ∧
      (∀ rs q, runOps c.pending (es.map Event.toOp) = some (rs, q) →
        (∀ x ∈ rs.dropLast, x.2 = true) →
        ∃ c', c.run rpcErr memberID es = Outcome.done c') := by
  refine ⟨?_, ?_, ?_, ?_⟩
  · intro r q h
    rcases (Take_eq_some_iff c.pending q r).1 h with
      ⟨hc, rfl, rfl⟩ | ⟨hc, u, rest, hp, rfl, rfl⟩
    · exact ⟨_, sendLoopIter_closed rpcErr memberID c hc, rfl, rfl, by simp [takenUpdates]⟩
    · rw [sendLoopIter_open_cons rpcErr memberID c u rest hc hp]
      obtain ⟨id, hu⟩ := hid u
      cases rpcErr c.sent.length with
      | none => exact ⟨_, rfl, rfl, hr, by simp [takenUpdates]⟩
      | some err =>
        rw [hu]
        exact ⟨_, rfl, rfl, hr, by simp [takenUpdates]⟩
  · intro h
    simp only [ReplicaClient.sendLoopIter, h]
  · intro c' h
    obtain ⟨rs, b1, b2, -, b4⟩ := run_refines rpcErr memberID es c c' h
    refine ⟨rs, b1, b2, ?_⟩
    rw [b4, hr]
    simp
  · intro rs q h hok
    exact run_done rpcErr memberID hid es c rs q (Or.inl hr) h hok

/-- An instance of `run_forwards`: every remote call fails, every member has its
`State`, and both queued updates are forwarded once each, in order; the loop returns
only after `Close`. -/
theorem run_forwards_example :
    ∃ rs, runOps ({ limit := 4, pending := [10, 20], closed := false } : pendingUpdates Nat)
          ([Event.loop, Event.update 30, Event.loop, Event.close, Event.loop].map
            Event.toOp) =
          some (rs, { limit := 4, pending := [30], closed := true }) ∧
        [({ Member := some 10, SourceNodeId := "n1" } : UpdateRequest Nat),
            { Member := some 20, SourceNodeId := "n1" }] =
          [] ++ (takenUpdates rs).map
            (fun u => { Member := some u, SourceNodeId := "n1" }) ∧
        (false = false ↔ ∃ x ∈ rs, x.2 = false) :=
  (run_forwards (fun _ => some "unavailable") (fun n => some (toString n))
    { localID := "n1", pending := { limit := 4, pending := [10, 20], closed := false },
      sent := [], warned := [], running := true }
    [Event.loop, Event.update 30, Event.loop, Event.close, Event.loop] rfl
    (fun n => ⟨toString n, rfl⟩)).2.2.1
    { localID := "n1", pending := { limit := 4, pending := [30], closed := true },
      sent := [{ Member := some 10, SourceNodeId := "n1" },
        { Member := some 20, SourceNodeId := "n1" }],
      warned := ["10", "20"], running := false }
    (by decide)

/-- C10, the code at the failing input. An update is a pointer to a member given by
its `State.Id`, `none` when the member has no `State`. `Update` queues a member
without `State` and then a member "m2".

With every remote call failing, the first loop iteration takes the first update,
issues its request and then panics on `m.State.Id` while building the warning: the
loop is over, "m2" is still queued and is never forwarded. With the remote calls
succeeding the same schedule goes on and forwards both; and with every call failing
but each member carrying its `State`, both are forwarded, each with a warning, and
the loop goes on. -/
theorem sendLoop_failed_call_panics :
    ReplicaClient.run (fun _ => some "unavailable") (fun u : Option String => u)
        { localID := "n1", pending := newPendingUpdates 4, sent := [], warned := [],
          running := true }
        [Event.update none, Event.update (some "m2"), Event.loop] =
      Outcome.panicked
        { localID := "n1",
          pending := { limit := 4, pending := [some "m2"], closed := false },
          sent := [{ Member := some none, SourceNodeId := "n1" }],
          warned := [], running := false } ∧
    ReplicaClient.run (fun _ => none) (fun u : Option String => u)
        { localID := "n1", pending := newPendingUpdates 4, sent := [], warned := [],
          running := true }
        [Event.update none, Event.update (some "m2"), Event.loop, Event.loop] =
      Outcome.done
        { localID := "n1",
          pending := { limit := 4, pending := [], closed := false },
          sent := [{ Member := some none, SourceNodeId := "n1" },
            { Member := some (some "m2"), SourceNodeId := "n1" }],
          warned := [], running := true } ∧
    ReplicaClient.run (fun _ => some "unavailable") (fun u : Option String => u)
        { localID := "n1", pending := newPendingUpdates 4, sent := [], warned := [],
          running := true }
        [Event.update (some "m1"), Event.update (some "m2"), Event.loop, Event.loop] =
      Outcome.done
        { localID := "n1",
          pending := { limit := 4, pending := [], closed := false },
          sent := [{ Member := some (some "m1"), SourceNodeId := "n1" },
            { Member := some (some "m2"), SourceNodeId := "n1" }],
          warned := ["m1", "m2"], running := true } := by
  decide

end Client

/-! ## NodeState: the heap of maps -/

section HeapLemmas

theorem get_make_new (h : Heap) (k : String) : h.make.1.get h.make.2 k = none := by
  simp [Heap.make, Heap.get]

theorem get_make_old (h : Heap) (b : Nat) (hb : b ≠ h.cells.length) (k : String) :
    h.make.1.get (some b) k = h.get (some b) k := by
  simp only [Heap.make, Heap.get]
  rcases Nat.lt_or_gt_of_ne hb with hlt | hgt
  · rw [List.getElem?_append_left hlt]
  · have h1 : h.cells[b]? = none := List.getElem?_eq_none (by omega)
    have h2 : (h.cells ++ [(∅ : MapCells)])[b]? = none :=
      List.getElem?_eq_none (by simp; omega)
    rw [h1, h2]

theorem assign_isSome (h : Heap) (a : Nat) (k v : String) (ha : a < h.cells.length) :
    ∃ h', h.assign (some a) k v = some h' := by
  simp only [Heap.assign]
  rw [List.getElem?_eq_getElem ha]
  exact ⟨_, rfl⟩

theorem assign_eq_some (h h' : Heap) (a : Nat) (k v : String)
    (hh : h.assign (some a) k v = some h') :
    ∃ c, h.cells[a]? = some c ∧ h' = { cells := h.cells.set a (c.insert k v) } := by
  simp only [Heap.assign] at hh
  cases hc : h.cells[a]? with
  | none => rw [hc] at hh; exact Option.noConfusion hh
  | some c =>
    rw [hc] at hh
    simp only [Option.some.injEq] at hh
    exact ⟨c, rfl, hh.symm⟩

theorem assign_length (h h' : Heap) (a : Nat) (k v : String)
    (hh : h.assign (some a) k v = some h') : h'.cells.length = h.cells.length := by
  obtain ⟨c, -, rfl⟩ := assign_eq_some h h' a k v hh
  simp

/-- After `m[k] = v` the map `m` holds `v` at `k` and what it held at the other keys. -/
theorem assign_get_same (h h' : Heap) (a : Nat) (k v j : String)
    (hh : h.assign (some a) k v = some h') :
    h'.get (some a) j = if j = k then some v else h.get (some a) j := by
  obtain ⟨c, hc, rfl⟩ := assign_eq_some h h' a k v hh
  have ha : a < h.cells.length := by
    by_contra hcon
    rw [List.getElem?_eq_none (by omega)] at hc
    exact Option.noConfusion hc
  simp only [Heap.get, hc, Option.getD_some]
  rw [List.getElem?_set_self ha]
  simp only [Option.getD_some]
  by_cases hj : j = k
  · subst hj
    simp [AList.lookup_insert]
  · simp [hj, AList.lookup_insert_ne hj]

/-- After `m[k] = v` every other map is as it was. -/
theorem assign_get_other (h h' : Heap) (a b : Nat) (k v j : String) (hab : a ≠ b)
    (hh : h.assign (some a) k v = some h') :
    h'.get (some b) j = h.get (some b) j := by
  obtain ⟨c, hc, rfl⟩ := assign_eq_some h h' a k v hh
  simp only [Heap.get]
  rw [List.getElem?_set_ne hab]

/-- The copying loop: it completes, allocates nothing, leaves every other map as it
was, and leaves in `cp` the entries it went through on top of what `cp` held. -/
theorem copyEntries_spec (a : Nat) (es : List (Sigma (fun _ : String => String)))
    (h : Heap) (ha : a < h.cells.length) (hes : es.NodupKeys) :
    ∃ h', copyEntries (some a) h es = some h' ∧
      h'.cells.length = h.cells.length ∧
      (∀ b, a ≠ b → ∀ j, h'.get (some b) j = h.get (some b) j) ∧
      (∀ j, h'.get (some a) j = (List.dlookup j es).orElse (fun _ => h.get (some a) j)) := by
  induction es generalizing h with
  | nil => exact ⟨h, rfl, rfl, fun _ _ _ => rfl, fun _ => by simp⟩
  | cons e es ih =>
    obtain ⟨h1, hh1⟩ := assign_isSome h a e.1 e.2 ha
    have hlen := assign_length h h1 a e.1 e.2 hh1
    have hnd := List.nodupKeys_cons.1 hes
    obtain ⟨h', b1, b2, b3, b4⟩ := ih h1 (by omega) hnd.2
    refine ⟨h', ?_, by omega, ?_, ?_⟩
    · simp only [copyEntries, hh1, b1]
    · intro b hab j
      rw [b3 b hab j, assign_get_other h h1 a b e.1 e.2 j hab hh1]
    · intro j
      rw [b4 j, assign_get_same h h1 a e.1 e.2 j hh1]
      by_cases hj : j = e.1
      · subst hj
        have hnone : List.dlookup e.1 es = none := List.dlookup_eq_none.2 hnd.1
        obtain ⟨k, v⟩ := e
        simp [hnone, List.dlookup_cons_eq]
      · rw [if_neg hj, List.dlookup_cons_ne es e hj]

/-- A call of `CopyState` returns, and returns the map allocated at the next free address; that
map holds exactly what `s` held, and every map allocated before is as it was. -/
theorem CopyState_spec (h : Heap) (s : GoMap) :
    ∃ h', CopyState h s = some (h', some h.cells.length) ∧
      h'.cells.length = h.cells.length + 1 ∧
      (∀ j, h'.get (some h.cells.length) j = h.get s j) ∧
      (∀ b, b ≠ h.cells.length → ∀ j, h'.get (some b) j = h.get (some b) j) := by
  cases s with
  | none =>
    refine ⟨h.make.1, rfl, by simp [Heap.make], ?_, ?_⟩
    · intro j
      exact get_make_new h j
    · intro b hb j
      exact get_make_old h b hb j
  | some b =>
    have hnd : (h.entries (some b)).NodupKeys := by
      simp only [Heap.entries]
      exact AList.nodupKeys _
    obtain ⟨h', b1, b2, b3, b4⟩ := copyEntries_spec h.cells.length (h.entries (some b))
      h.make.1 (by simp [Heap.make]) hnd
    refine ⟨h', ?_, ?_, ?_, ?_⟩
    · simp only [CopyState, Heap.make] at b1 ⊢
      simp [b1]
    · rw [b2]
      simp [Heap.make]
    · intro j
      rw [b4 j]
      have hnew : h.make.1.get (some h.cells.length) j = none := get_make_new h j
      rw [hnew]
      simp [Heap.get, Heap.entries, AList.lookup]
    · intro c hc j
      rw [b3 c (Ne.symm hc) j]
      exact get_make_old h c hc j

theorem get_eq_dlookup (h : Heap) (m : GoMap) (k : String) :
    h.get m k = List.dlookup k (h.entries m) := by
  cases m <;> rfl

theorem entries_nodupKeys (h : Heap) (m : GoMap) : (h.entries m).NodupKeys := by
  cases m with
  | none => exact List.nodupKeys_nil
  | some a => exact AList.nodupKeys _

/-- Two maps that answer every read alike hold the same entries. -/
theorem entries_perm (h h' : Heap) (m m' : GoMap)
    (hget : ∀ k, h'.get m' k = h.get m k) : (h'.entries m').Perm (h.entries m) :=
  List.lookup_ext (entries_nodupKeys h' m') (entries_nodupKeys h m)
    (fun x y => by rw [← get_eq_dlookup, ← get_eq_dlookup, hget x])

end HeapLemmas

/-! ## NodeState: copies -/

section NodeStateClaims

/-- C7: for a `NodeState` whose `State` is nil or an allocated map, `Copy` returns a
value with the same `ID`, `Service`, `Locality`, `Created` and `Revision` and a
`State` holding exactly the entries of the original `State` (the same answer to every
read, the same list of entries up to order); the original map is as
it was; writing any key of the copy's `State` succeeds and leaves the original's
entries as they were; and writing any key of the original's `State` leaves the copy's
entries as they were (such a write succeeds when the original's `State` is not
nil). -/
theorem Copy_deep (h : Heap) (s : NodeState) (hs : h.allocated s.State) :
    ∃ h' cp, s.Copy h = some (h', cp) ∧
      (cp.ID = s.ID ∧ cp.Service = s.Service ∧ cp.Locality = s.Locality ∧
        cp.Created = s.Created ∧ cp.Revision = s.Revision) ∧
      ((∀ k, h'.get cp.State k = h.get s.State k) ∧
        (h'.entries cp.State).Perm (h.entries s.State)) ∧
      (∀ k, h'.get s.State k = h.get s.State k) ∧
      (∀ k v, ∃ h2, h'.assign cp.State k v = some h2 ∧
        h2.get cp.State k = some v ∧ ∀ j, h2.get s.State j = h.get s.State j) ∧
      (∀ k v h2, h'.assign s.State k v = some h2 →
        h2.get s.State k = some v ∧ ∀ j, h2.get cp.State j = h'.get cp.State j) ∧
      (s.State ≠ none → ∀ k v, ∃ h2, h'.assign s.State k v = some h2) := by
  obtain ⟨h', a1, a2, a3, a4⟩ := CopyState_spec h s.State
  have horig : ∀ k, h'.get s.State k = h.get s.State k := by
    intro k
    cases hst : s.State with
    | none => rfl
    | some b =>
      rw [hst] at hs
      exact a4 b (Nat.ne_of_lt hs) k
  refine ⟨h', { s with State := some h.cells.length }, by simp [NodeState.Copy, a1],
    ⟨rfl, rfl, rfl, rfl, rfl⟩, ⟨a3, entries_perm h h' s.State _ a3⟩, horig, ?_, ?_, ?_⟩
  · intro k v
    obtain ⟨h2, hh2⟩ := assign_isSome h' h.cells.length k v (by omega)
    refine ⟨h2, hh2, ?_, ?_⟩
    · rw [assign_get_same h' h2 _ k v k hh2, if_pos rfl]
    · intro j
      cases hst : s.State with
      | none => rfl
      | some b =>
        rw [hst] at hs
        rw [assign_get_other h' h2 _ b k v j (Nat.ne_of_gt hs) hh2, ← hst]
        exact horig j
  · intro k v h2 hh2
    cases hst : s.State with
    | none =>
      rw [hst] at hh2
      exact Option.noConfusion hh2
    | some b =>
      rw [hst] at hs hh2
      refine ⟨?_, ?_⟩
      · rw [assign_get_same h' h2 b k v k hh2, if_pos rfl]
      · intro j
        exact assign_get_other h' h2 b _ k v j (Nat.ne_of_lt hs) hh2
  · intro hne k v
    cases hst : s.State with
    | none => exact absurd hst hne
    | some b =>
      rw [hst] at hs
      exact assign_isSome h' b k v (by
        have : b < h.cells.length := hs
        omega)

/-- Witness of `Copy_deep`: a node whose state map holds one entry. -/
theorem Copy_deep_witness :
    (Heap.mk [(∅ : MapCells).insert "a" "1"]).allocated (some 0) ∧
      ∃ h' cp,
        NodeState.Copy (Heap.mk [(∅ : MapCells).insert "a" "1"])
          { ID := "n1", Service := "counter", Locality := "eu", Created := 7,
            Revision := "v1", State := some 0 } = some (h', cp) ∧
        cp.ID = "n1" ∧
        h'.get cp.State "a" = (Heap.mk [(∅ : MapCells).insert "a" "1"]).get (some 0) "a" :=
  ⟨Nat.zero_lt_one, by
    obtain ⟨h', cp, h1, h2, h3, -⟩ :=
      Copy_deep (Heap.mk [(∅ : MapCells).insert "a" "1"])
        { ID := "n1", Service := "counter", Locality := "eu", Created := 7,
          Revision := "v1", State := some 0 } Nat.zero_lt_one
    exact ⟨h', cp, h1, h2.1, h3.1 "a"⟩⟩

/-- C8: `CopyState` always returns, and never the nil map: on the nil map it returns a
new map with no entry, on any map `m` a new map holding exactly the entries of `m`;
and the `State` of `NodeState.Copy` is never nil, whatever the `State` copied. -/
theorem CopyState_never_nil (h : Heap) (m : GoMap) (s : NodeState) :
    (∃ h' a, CopyState h none = some (h', some a) ∧ h'.entries (some a) = [] ∧
        ∀ k, h'.get (some a) k = none) ∧
      (∃ h' a, CopyState h m = some (h', some a) ∧
        (∀ k, h'.get (some a) k = h.get m k) ∧
        (h'.entries (some a)).Perm (h.entries m)) ∧
      (∃ h' cp, s.Copy h = some (h', cp) ∧ cp.State ≠ none) := by
  refine ⟨⟨h.make.1, h.cells.length, rfl, ?_, fun k => get_make_new h k⟩, ?_, ?_⟩
  · simp [Heap.make, Heap.entries]
  · obtain ⟨h', a1, -, a3, -⟩ := CopyState_spec h m
    exact ⟨h', _, a1, a3, entries_perm h h' m _ a3⟩
  · obtain ⟨h', a1, -, -, -⟩ := CopyState_spec h s.State
    exact ⟨h', { s with State := some h.cells.length }, by simp [NodeState.Copy, a1],
      by simp⟩

end NodeStateClaims

/-! ## Fuddle.Update -/

section SdkClaims

variable {σ τ : Type}

/-- C9: `Fuddle.Update` builds one record, with the client's own id, the type
`NODE_UPDATE` and the single entry `key: value`, and gives it to the local node map
first. If the node map rejects it, `Update` returns an error, the stream is untouched
and `Send` is not called. Otherwise the same record is sent on the stream, after the
local call, and `Update` returns nil exactly when `Send` succeeded too. -/
theorem Update_local_then_send (env : Collaborators σ τ) (f : Fuddle σ τ)
    (key value : String) :
    ((updateRecord f.id key value).NodeId = f.id ∧
        (updateRecord f.id key value).UpdateType = UpdateType.NODE_UPDATE ∧
        (updateRecord f.id key value).State = some [(key, value)]) ∧
      (f.Update env key value).2.nodeMap =
        (env.nodeMapUpdate f.nodeMap (updateRecord f.id key value)).1 ∧
      (∀ e, (env.nodeMapUpdate f.nodeMap (updateRecord f.id key value)).2 = some e →
        (f.Update env key value).1 = some (wrapErr e) ∧
        (f.Update env key value).2.stream = f.stream ∧
        (f.Update env key value).2.calls =
          f.calls ++ [Call.nodeMapUpdate (updateRecord f.id key value)]) ∧
      ((env.nodeMapUpdate f.nodeMap (updateRecord f.id key value)).2 = none →
        (f.Update env key value).1 =
          ((env.streamSend f.stream (updateRecord f.id key value)).2).map wrapErr ∧
        (f.Update env key value).2.stream =
          (env.streamSend f.stream (updateRecord f.id key value)).1 ∧
        (f.Update env key value).2.calls =
          f.calls ++ [Call.nodeMapUpdate (updateRecord f.id key value),
            Call.streamSend (updateRecord f.id key value)]) ∧
      ((f.Update env key value).1 = none ↔
        (env.nodeMapUpdate f.nodeMap (updateRecord f.id key value)).2 = none ∧
          (env.streamSend f.stream (updateRecord f.id key value)).2 = none) := by
  refine ⟨⟨rfl, rfl, rfl⟩, ?_, ?_, ?_, ?_⟩
  all_goals
    simp only [Fuddle.Update]
    rcases h1 : env.nodeMapUpdate f.nodeMap (updateRecord f.id key value) with ⟨nm, _ | e1⟩
    all_goals
      rcases h2 : env.streamSend f.stream (updateRecord f.id key value) with ⟨st, _ | e2⟩
      all_goals simp [h1, h2]

/-- Witness of `Update_local_then_send`: a node map that rejects every record. -/
theorem Update_local_then_send_witness :
    (Fuddle.Update
        ({ nodeMapUpdate := fun n _ => (n, some "unknown node"),
           streamSend := fun l u => (l ++ [u], none) } :
          Collaborators Nat (List NodeUpdate))
        { id := "n1", nodeMap := 0, stream := [], calls := [] } "k" "v").1 =
        some (wrapErr "unknown node") ∧
      (Fuddle.Update
        ({ nodeMapUpdate := fun n _ => (n, some "unknown node"),
           streamSend := fun l u => (l ++ [u], none) } :
          Collaborators Nat (List NodeUpdate))
        { id := "n1", nodeMap := 0, stream := [], calls := [] } "k" "v").2.stream = [] ∧
      (Fuddle.Update
        ({ nodeMapUpdate := fun n _ => (n, some "unknown node"),
           streamSend := fun l u => (l ++ [u], none) } :
          Collaborators Nat (List NodeUpdate))
        { id := "n1", nodeMap := 0, stream := [], calls := [] } "k" "v").2.calls =
        [] ++ [Call.nodeMapUpdate (updateRecord "n1" "k" "v")] :=
  (Update_local_then_send
    ({ nodeMapUpdate := fun n _ => (n, some "unknown node"),
       streamSend := fun l u => (l ++ [u], none) } :
      Collaborators Nat (List NodeUpdate))
    { id := "n1", nodeMap := 0, stream := [], calls := [] } "k" "v").2.2.1
    "unknown node" rfl

end SdkClaims

end FuddleSpec
